import Mathlib

/-!
Verification of the graphgen parallel chunked generation and offset-based
merge subsystem (src/main.rs), as a shallow embedding in Lean 4.

Modelling conventions:
- Rust `usize` values are `Nat`. The program never relies on wraparound;
  the one unchecked subtraction (`max_prop_size - min_prop_size`) is modelled
  with an explicit checked subtraction `checked_sub` returning `Option Nat`,
  mirroring the debug-mode panic branch.
- `f64` samples are modelled as rationals `Rat`. Random draws are passed in
  as explicit parameters: a uniform (0,1) draw is a rational `u` with
  `0 <= u < 1`, a normal draw is an arbitrary rational, an exponential draw
  is an arbitrary nonnegative rational (the support of Exp(0.5)).
- The Rust cast `f as usize` (truncate toward zero, saturate at 0 below)
  coincides with `Int.toNat (Int.floor f)` for every finite `f`.
- File contents are byte lists (`List Nat`, each entry a byte value).
-/

namespace Graphgen

/-- Distribution selector, mirroring `enum Dist` in src/main.rs. -/
inductive Dist where
  | none
  | uniform
  | normal
  | exp
deriving DecidableEq, Repr

/-- Invocation parameters, mirroring `struct Args` in src/main.rs
(the output directory, an OS path consumed by external collaborators,
is omitted). -/
structure Args where
  n_nodes : Nat
  min_prop_size : Nat
  max_prop_size : Nat
  edge_dist : Dist
  node_prop_dist : Dist
  edge_prop_dist : Dist
  nprocs : Nat
  generatechunks : Bool
deriving DecidableEq, Repr

/-- Rust cast of a nonnegative-or-saturating float to `usize`:
truncation toward zero, which for the values cast in this program
(all produced from nonnegative fractions) is the floor, and saturates
at 0 for negative inputs. -/
def usize_of_float (q : Rat) : Nat := Int.toNat (Int.floor q)

/-- Clamp of the normal sample into [0,1], mirroring the
`if n > 1. { 1. } else if n < 0. { 0. } else { n }` branches of
`get_prop` and `get_n_edges`. -/
def clamp01 (x : Rat) : Rat := if x > 1 then 1 else if x < 0 then 0 else x

/-- Fraction `f` computed by the `match prop_dist` in `get_prop`
(src/main.rs lines 81-95), with the underlying random draw passed
explicitly. The exponential branch returns the Exp(0.5) sample itself,
unclamped. -/
def get_prop_f (prop_dist : Dist) (draw : Rat) : Rat :=
  match prop_dist with
  | Dist.none => 0
  | Dist.uniform => draw
  | Dist.normal => clamp01 draw
  | Dist.exp => draw

/-- Fraction `f` computed by the `match edge_dist` in `get_n_edges`
(src/main.rs lines 107-124); the exponential branch squares the
Exp(0.5) sample (`e * e`). -/
def get_n_edges_f (edge_dist : Dist) (draw : Rat) : Rat :=
  match edge_dist with
  | Dist.none => 0
  | Dist.uniform => draw
  | Dist.normal => clamp01 draw
  | Dist.exp => draw * draw

/-- Undivided sampled property length `min_prop_size + (f * prop_range) as usize`
appearing inside the buffer allocation of `get_prop` (src/main.rs line 96). -/
def sampled_prop_len (prop_dist : Dist) (draw : Rat)
    (min_prop_size prop_range_v : Nat) : Nat :=
  min_prop_size + usize_of_float (get_prop_f prop_dist draw * (prop_range_v : Rat))

/-- Number of raw bytes allocated and read from the random byte source by
`get_prop`: `(min_prop_size + ((f * prop_range as f64) as usize)) / 3`
(src/main.rs line 96). -/
def get_prop_len (prop_dist : Dist) (draw : Rat)
    (min_prop_size prop_range_v : Nat) : Nat :=
  sampled_prop_len prop_dist draw min_prop_size prop_range_v / 3

/-- Per-node edge count `(f * 10000.) as usize` (src/main.rs line 126). -/
def get_n_edges (edge_dist : Dist) (draw : Rat) : Nat :=
  usize_of_float (get_n_edges_f edge_dist draw * 10000)

/-- Whether a property column is emitted at all: the generator compares the
distribution against `Dist::None` (`has_node_props` / `has_edge_props`,
src/main.rs lines 149-150) and calls `get_prop` only when this is true. -/
def has_props (d : Dist) : Bool := d ≠ Dist.none

/-- Chunk size `args.n_nodes / args.nprocs` (src/main.rs line 143),
integer (floor) division. -/
def chunksize (n p : Nat) : Nat := n / p

/-- Chunk start `chunksize * id` (src/main.rs line 144). -/
def chunk_start (n p i : Nat) : Nat := chunksize n p * i

/-- Chunk end `min(start + chunksize, n_nodes)` (src/main.rs line 145). -/
def chunk_end (n p i : Nat) : Nat := min (chunk_start n p i + chunksize n p) n

/-- Model of `rand::thread_rng().gen_range(0..m)`: a uniform draw in `[0, m)`,
represented as an arbitrary natural seed reduced modulo `m` (the code panics
when `m = 0`; every value below `m` is reachable). -/
def gen_range (m r : Nat) : Nat := r % m

/-- Upper bound for edge destinations: chunk-local `end` in incremental mode,
`args.n_nodes` otherwise (src/main.rs lines 211-215). -/
def maxnid (args : Args) (i : Nat) : Nat :=
  if args.generatechunks then chunk_end args.n_nodes args.nprocs i else args.n_nodes

/-- Destination id of a generated edge in chunk `i`:
`rand::thread_rng().gen_range(0..maxnid)` (src/main.rs line 216). -/
def edge_dst (args : Args) (i r : Nat) : Nat := gen_range (maxnid args i) r

/-- Checked `usize` subtraction: `a - b` when it does not underflow, `none`
for the debug-mode panic branch. -/
def checked_sub (a b : Nat) : Option Nat := if b ≤ a then some (a - b) else none

/-- The generator's `prop_range = args.max_prop_size - args.min_prop_size`
(src/main.rs line 140), with the unchecked subtraction made explicit. -/
def prop_range (args : Args) : Option Nat :=
  checked_sub args.max_prop_size args.min_prop_size

/-- Offset table of `combine_chunks` (src/main.rs lines 253-263): starts with
the current (header) length of the destination file and pushes
`offsets[i] + len_i` for each chunk length in order. -/
def offsets (h : Nat) : List Nat → List Nat
  | [] => [h]
  | l :: ls => h :: offsets (h + l) ls

/-- Drop a single trailing carriage-return byte, as
`std::io::BufRead::lines` does after stripping the newline. -/
def drop_cr (l : List Nat) : List Nat :=
  match l.getLast? with
  | some 13 => l.dropLast
  | _ => l

/-- Accumulator-based splitter behind `rust_lines`: bytes before each
newline byte 10 form a line (with a trailing 13 stripped); a final
unterminated line is kept verbatim, and empty content yields no lines. -/
def split_lines_aux : List Nat → List Nat → List (List Nat)
  | [], acc => if acc.isEmpty then [] else [acc.reverse]
  | c :: rest, acc =>
    if c = 10 then drop_cr acc.reverse :: split_lines_aux rest []
    else split_lines_aux rest (c :: acc)

/-- Byte-level model of `BufReader::lines()` over a chunk file's content.
(The Rust iterator additionally UTF-8-decodes each line; on the ASCII
content this program produces the decode is the identity, and the
well-formedness predicate below restricts rows to ASCII bytes.) -/
def rust_lines (content : List Nat) : List (List Nat) :=
  split_lines_aux content []

/-- Line-oriented re-framing done by each merge worker
(src/main.rs lines 313-322): for every line of the chunk file, write the
line followed by exactly one newline byte. -/
def reframe (content : List Nat) : List Nat :=
  ((rust_lines content).map (fun l => l ++ [10])).flatten

/-- Positional write into a pre-sized destination file: replaces the bytes
at `[pos, pos + data.length)`, modelling seek-then-write into the region
reserved for one chunk. -/
def write_at (file : List Nat) (pos : Nat) (data : List Nat) : List Nat :=
  file.take pos ++ data ++ file.drop (pos + data.length)

/-- Sequence of merge writes: chunk `i`'s re-framed content is written at
the running offset, which then advances by the chunk file's byte length
(the quantity the Offset Planner obtained by stat). The concurrent merge
workers write disjoint ranges, so their effect equals this sequential
composition. -/
def merge_run : List Nat → Nat → List (List Nat) → List Nat
  | file, _, [] => file
  | file, pos, c :: cs => merge_run (write_at file pos (reframe c)) (pos + c.length) cs

/-- Destination file produced by `combine_chunks` for one table: the file
initially holds the header, is pre-sized (`set_len`) to header length plus
the sum of the chunk byte lengths, and every chunk is then written at its
planned offset. -/
def combine_result (header : List Nat) (chunks : List (List Nat)) : List Nat :=
  merge_run (header ++ List.replicate (chunks.map List.length).sum 0)
    header.length chunks

/-- A chunk file is well formed when it is a sequence of rows, each
terminated by exactly one newline byte, where a row itself contains no
newline byte, does not end in a carriage-return byte, and consists of
ASCII bytes (the generator emits only digits, the bar separator and
percent-encoded payload). -/
def WellFormedChunk (content : List Nat) : Prop :=
  ∃ rows : List (List Nat),
    content = (rows.map (fun r => r ++ [10])).flatten ∧
    ∀ r ∈ rows, (10 ∉ r) ∧ r.getLast? ≠ some 13 ∧ ∀ b ∈ r, b < 128

/-- Header line `NodeID|data\n` of the merged node table
(src/main.rs line 350), as bytes. -/
def node_header : List Nat := [78, 111, 100, 101, 73, 68, 124, 100, 97, 116, 97, 10]

/-- Header line `SrcID|DstID\n` of the merged edge table
(src/main.rs line 354), as bytes. -/
def edge_header : List Nat := [83, 114, 99, 73, 68, 124, 68, 115, 116, 73, 68, 10]

/-- File-system state relevant to the orchestrator: the two merged tables
and the per-chunk node/edge/stats files (present or absent by chunk id). -/
structure GenFS where
  nodes_csv : List Nat
  edges_csv : List Nat
  chunk_nodes : Nat → Option (List Nat)
  chunk_edges : Nat → Option (List Nat)
  chunk_stats : Nat → Option (List Nat)

/-- Chunk contents listed in chunk order for the merge phase. -/
def chunk_list (p : Nat) (f : Nat → List Nat) : List (List Nat) :=
  (List.range p).map f

/-- Effect of `combine_chunks` (src/main.rs lines 238-341) on the file
system: both destination tables receive the re-framed chunk contents after
their headers, and every worker deletes its chunk node and edge files;
stats files are never touched by the merge. -/
def combine_chunks_fs (args : Args) (fs : GenFS)
    (gen : Nat → List Nat × List Nat × List Nat) : GenFS :=
  { nodes_csv := combine_result fs.nodes_csv (chunk_list args.nprocs (fun i => (gen i).1))
    edges_csv := combine_result fs.edges_csv (chunk_list args.nprocs (fun i => (gen i).2.1))
    chunk_nodes := fun _ => Option.none
    chunk_edges := fun _ => Option.none
    chunk_stats := fs.chunk_stats }

/-- Effect of `generate` (src/main.rs lines 343-376) on the file system,
with the content produced by worker `i` given abstractly as `gen i`
(node file, edge file, stats file): write the two headers, run every
generator, then either stop (incremental mode) or merge. -/
def run_generate (args : Args) (gen : Nat → List Nat × List Nat × List Nat) : GenFS :=
  let fs1 : GenFS :=
    { nodes_csv := node_header
      edges_csv := edge_header
      chunk_nodes := fun i => if i < args.nprocs then some (gen i).1 else Option.none
      chunk_edges := fun i => if i < args.nprocs then some (gen i).2.1 else Option.none
      chunk_stats := fun i => if i < args.nprocs then some (gen i).2.2 else Option.none }
  if args.generatechunks then fs1 else combine_chunks_fs args fs1 gen

/-- Concrete invocation in incremental mode: nine nodes, three workers. -/
def args_incr : Args :=
  ⟨9, 0, 0, Dist.none, Dist.none, Dist.none, 3, true⟩

/-- Concrete invocation in normal (merging) mode with property bounds 4 and 7. -/
def args_norm : Args :=
  ⟨10, 4, 7, Dist.uniform, Dist.uniform, Dist.none, 2, false⟩

/-- Concrete per-worker outputs used to evaluate the orchestrator model:
worker `i` produces a one-row node file, a one-row edge file and a one-row
stats file. -/
def gen_sample : Nat → List Nat × List Nat × List Nat :=
  fun i => ([48 + i, 10], [48 + i, 124, 48, 10], [48 + i, 32, 49, 10])

/-! Helper lemmas shared between the claim theorems. -/

theorem clamp01_nonneg (x : Rat) : 0 ≤ clamp01 x := by
  unfold clamp01
  split_ifs with h1 h2
  · norm_num
  · norm_num
  · exact le_of_not_lt h2

theorem clamp01_le_one (x : Rat) : clamp01 x ≤ 1 := by
  unfold clamp01
  split_ifs with h1 h2
  · norm_num
  · norm_num
  · exact le_of_not_lt h1

/-! Claim theorems. -/

/-- C1: evaluation of the chunk-range formulas at the failing input
`n_nodes = 9`, `nprocs = 2`. The two chunks are `[0, 4)` and `[4, 8)`:
the final chunk's end is `floor(9/2) * 2 = 8`, not `9`, so node id 8 lies
in no chunk and the ranges do not partition `[0, 9)`. -/
theorem chunks_drop_remainder :
    chunk_start 9 2 0 = 0 ∧ chunk_end 9 2 0 = 4 ∧
    chunk_start 9 2 1 = 4 ∧ chunk_end 9 2 1 = 8 ∧ 8 < 9 := by
  decide

/-- C2 counterexample: the exponential branch of the sampler is not
clamped. The value 2 is in the support of Exp(0.5), and the fraction
returned for it is 2, outside `[0, 1]`. -/
theorem exp_fraction_exceeds_one :
    (0 : Rat) ≤ 2 ∧ get_prop_f Dist.exp 2 = 2 ∧ ¬ get_prop_f Dist.exp 2 ≤ 1 := by
  refine ⟨by norm_num, rfl, by norm_num [get_prop_f]⟩

/-- C2 (amended): the fraction drawn by the sampler lies in `[0, 1]` for
the none, uniform and normal kinds (on both the property-length and the
edge-count paths), while the exponential kind only guarantees
nonnegativity: its draw, and the squared draw used for edge counts, are
unbounded above. -/
theorem sampler_fraction_range (u x e : Rat)
    (hu0 : 0 ≤ u) (hu1 : u < 1) (he : 0 ≤ e) :
    get_prop_f Dist.none 0 = 0 ∧
    0 ≤ get_prop_f Dist.uniform u ∧ get_prop_f Dist.uniform u ≤ 1 ∧
    0 ≤ get_prop_f Dist.normal x ∧ get_prop_f Dist.normal x ≤ 1 ∧
    0 ≤ get_prop_f Dist.exp e ∧
    get_n_edges_f Dist.none 0 = 0 ∧
    0 ≤ get_n_edges_f Dist.uniform u ∧ get_n_edges_f Dist.uniform u ≤ 1 ∧
    0 ≤ get_n_edges_f Dist.normal x ∧ get_n_edges_f Dist.normal x ≤ 1 ∧
    0 ≤ get_n_edges_f Dist.exp e := by
  refine ⟨rfl, hu0, le_of_lt hu1, clamp01_nonneg x, clamp01_le_one x, he,
    rfl, hu0, le_of_lt hu1, clamp01_nonneg x, clamp01_le_one x, ?_⟩
  exact mul_self_nonneg e

/-- Witness for the amended C2 theorem at the draws 1/2, 3 and 2. -/
theorem sampler_fraction_range_witness :
    (0 : Rat) ≤ 1/2 ∧ (1/2 : Rat) < 1 ∧ (0 : Rat) ≤ 2 ∧
    0 ≤ get_prop_f Dist.uniform (1/2) ∧ get_prop_f Dist.uniform (1/2) ≤ 1 ∧
    0 ≤ get_prop_f Dist.normal 3 ∧ get_prop_f Dist.normal 3 ≤ 1 ∧
    0 ≤ get_prop_f Dist.exp 2 := by
  have h := sampler_fraction_range (1/2) 3 2 (by norm_num) (by norm_num) (by norm_num)
  exact ⟨by norm_num, by norm_num, by norm_num,
    h.2.1, h.2.2.1, h.2.2.2.1, h.2.2.2.2.1, h.2.2.2.2.2.1⟩

/-- C3 counterexample: `get_prop` called with kind none and
`min_prop_size = 3` allocates and reads `(3 + 0) / 3 = 1` raw byte, not 0
(in the program this call never happens: the generator skips the property
entirely when the distribution is none). -/
theorem get_prop_none_reads_bytes :
    get_prop_len Dist.none 0 3 5 = 1 ∧ (1 : Nat) ≠ 0 := by
  constructor
  · simp [get_prop_len, sampled_prop_len, get_prop_f, usize_of_float]
  · decide

/-- C3 (amended): with kind none, `get_n_edges` returns exactly 0 and the
generator skips the property column entirely (so the program reads no
property bytes); `get_prop` itself, if called with kind none, would read
`min_prop_size / 3` bytes, which is 0 only when `min_prop_size < 3`. -/
theorem dist_none_all_zero (draw : Rat) (m r : Nat) :
    get_n_edges Dist.none draw = 0 ∧
    get_prop_len Dist.none draw m r = m / 3 ∧
    has_props Dist.none = false := by
  refine ⟨?_, ?_, rfl⟩
  · simp [get_n_edges, get_n_edges_f, usize_of_float]
  · simp [get_prop_len, sampled_prop_len, get_prop_f, usize_of_float]

/-- C4 counterexample: at `min_prop_size = max_prop_size = 5` (allowed by
the precondition `min ≤ max`) and the valid uniform draw 0, the sampled
property length is 5, which cannot lie in the empty interval `[5, 5)`. -/
theorem uniform_prop_len_empty_interval :
    (0 : Rat) ≤ 0 ∧ (0 : Rat) < 1 ∧ 5 ≤ 5 ∧
    sampled_prop_len Dist.uniform 0 5 (5 - 5) = 5 ∧
    ¬ sampled_prop_len Dist.uniform 0 5 (5 - 5) < 5 := by
  have h5 : sampled_prop_len Dist.uniform 0 5 (5 - 5) = 5 := by
    simp [sampled_prop_len, get_prop_f, usize_of_float]
  refine ⟨by norm_num, by norm_num, le_refl 5, h5, ?_⟩
  omega

/-- C4 (amended): for the uniform distribution with
`min_prop_size < max_prop_size` and a uniform draw `f ∈ [0, 1)`, the
sampled property length `min + floor(f * (max - min))` lies in
`[min, max)`, and the raw byte count allocated and read by `get_prop` is
that length divided by 3 (floor division); when `min = max` the length is
exactly `min`. -/
theorem uniform_prop_len_range (f : Rat) (mn mx : Nat)
    (_h0 : 0 ≤ f) (h1 : f < 1) (hlt : mn < mx) :
    mn ≤ sampled_prop_len Dist.uniform f mn (mx - mn) ∧
    sampled_prop_len Dist.uniform f mn (mx - mn) < mx ∧
    get_prop_len Dist.uniform f mn (mx - mn) =
      sampled_prop_len Dist.uniform f mn (mx - mn) / 3 := by
  have hrpos : 0 < mx - mn := Nat.sub_pos_of_lt hlt
  have hrq : (0 : Rat) < ((mx - mn : Nat) : Rat) := by exact_mod_cast hrpos
  have hmul : f * ((mx - mn : Nat) : Rat) < ((mx - mn : Nat) : Rat) :=
    mul_lt_of_lt_one_left hrq h1
  have hfl : Int.floor (f * ((mx - mn : Nat) : Rat)) < ((mx - mn : Nat) : Int) := by
    apply Int.floor_lt.mpr
    push_cast
    exact hmul
  have htn : usize_of_float (f * ((mx - mn : Nat) : Rat)) < mx - mn := by
    unfold usize_of_float
    omega
  refine ⟨?_, ?_, rfl⟩ <;> simp only [sampled_prop_len, get_prop_f]
  · exact Nat.le_add_right _ _
  · omega

/-- Witness for the amended C4 theorem at draw 1/2 and bounds 1 and 3. -/
theorem uniform_prop_len_range_witness :
    (0 : Rat) ≤ 1/2 ∧ (1/2 : Rat) < 1 ∧ 1 < 3 ∧
    1 ≤ sampled_prop_len Dist.uniform (1/2) 1 (3 - 1) ∧
    sampled_prop_len Dist.uniform (1/2) 1 (3 - 1) < 3 ∧
    get_prop_len Dist.uniform (1/2) 1 (3 - 1) =
      sampled_prop_len Dist.uniform (1/2) 1 (3 - 1) / 3 := by
  have h := uniform_prop_len_range (1/2) 1 3 (by norm_num) (by norm_num) (by norm_num)
  exact ⟨by norm_num, by norm_num, by norm_num, h.1, h.2.1, h.2.2⟩

/-- C5: the per-node edge count is `floor(f * 10000)` for the uniform and
normal kinds (for normal, `f` is the clamped draw), and
`floor(e² * 10000)` for the exponential kind, whose draw is squared
before use; for the uniform kind with a draw in `[0, 1)` the count lies
in `[0, 10000)`. -/
theorem edge_count_formula (u x e : Rat) (hu0 : 0 ≤ u) (hu1 : u < 1) :
    (get_n_edges Dist.uniform u : Int) = Int.floor (u * 10000) ∧
    (get_n_edges Dist.normal x : Int) = Int.floor (clamp01 x * 10000) ∧
    (get_n_edges Dist.exp e : Int) = Int.floor (e * e * 10000) ∧
    get_n_edges Dist.uniform u < 10000 := by
  have hten : (0 : Rat) ≤ 10000 := by norm_num
  have hu : (0 : Rat) ≤ u * 10000 := mul_nonneg hu0 hten
  have hx : (0 : Rat) ≤ clamp01 x * 10000 := mul_nonneg (clamp01_nonneg x) hten
  have hee : (0 : Rat) ≤ e * e * 10000 := mul_nonneg (mul_self_nonneg e) hten
  have hlt : u * 10000 < 10000 := by nlinarith
  have hfl : Int.floor (u * 10000) < (10000 : Int) := by
    apply Int.floor_lt.mpr
    push_cast
    exact hlt
  have hfl0 : 0 ≤ Int.floor (u * 10000) := Int.floor_nonneg.mpr hu
  refine ⟨?_, ?_, ?_, ?_⟩
  · simp only [get_n_edges, get_n_edges_f, usize_of_float]
    exact Int.toNat_of_nonneg (Int.floor_nonneg.mpr hu)
  · simp only [get_n_edges, get_n_edges_f, usize_of_float]
    exact Int.toNat_of_nonneg (Int.floor_nonneg.mpr hx)
  · simp only [get_n_edges, get_n_edges_f, usize_of_float]
    exact Int.toNat_of_nonneg (Int.floor_nonneg.mpr hee)
  · simp only [get_n_edges, get_n_edges_f, usize_of_float]
    omega

/-- Witness for C5 at the uniform draw 1/2. -/
theorem edge_count_formula_witness :
    (0 : Rat) ≤ 1/2 ∧ (1/2 : Rat) < 1 ∧
    (get_n_edges Dist.uniform (1/2) : Int) = Int.floor ((1/2 : Rat) * 10000) ∧
    get_n_edges Dist.uniform (1/2) < 10000 := by
  have h := edge_count_formula (1/2) 3 2 (by norm_num) (by norm_num)
  exact ⟨by norm_num, by norm_num, h.1, h.2.2.2⟩

/-- C6: every generated edge destination respects its bound: in
incremental mode (`generatechunks`) the destination is strictly below the
generating chunk's own `end`, and in normal mode it is strictly below
`n_nodes`. The positivity hypotheses hold whenever an edge is generated
at all, since edges are emitted only for a node id inside `[start, end)`
and `end ≤ n_nodes`. -/
theorem edge_dst_in_bounds (args : Args) (i r : Nat)
    (hend : 0 < chunk_end args.n_nodes args.nprocs i)
    (hn : 0 < args.n_nodes) :
    (args.generatechunks = true →
      edge_dst args i r < chunk_end args.n_nodes args.nprocs i) ∧
    (args.generatechunks = false → edge_dst args i r < args.n_nodes) := by
  constructor
  · intro hg
    simp only [edge_dst, maxnid, gen_range, hg, if_true]
    exact Nat.mod_lt _ hend
  · intro hg
    simp only [edge_dst, maxnid, gen_range, hg, Bool.false_eq_true, if_false]
    exact Nat.mod_lt _ hn

/-- Witness for C6: in the incremental invocation with nine nodes and
three workers, chunk 1 ends at 6 and the edge destination derived from
seed 100 is 4, below that end. -/
theorem edge_dst_in_bounds_witness :
    0 < chunk_end args_incr.n_nodes args_incr.nprocs 1 ∧
    0 < args_incr.n_nodes ∧
    edge_dst args_incr 1 100 < chunk_end args_incr.n_nodes args_incr.nprocs 1 := by
  exact ⟨by decide, by decide,
    (edge_dst_in_bounds args_incr 1 100 (by decide) (by decide)).1 rfl⟩

/-- Witness for the amended C3 theorem at draw 7 and `min_prop_size = 4`:
the hypothetical `get_prop` call would read `4 / 3 = 1` byte. -/
theorem dist_none_all_zero_witness :
    get_n_edges Dist.none 7 = 0 ∧
    get_prop_len Dist.none 7 4 9 = 1 ∧
    has_props Dist.none = false :=
  dist_none_all_zero 7 4 9

/-- C10: under the precondition `min_prop_size ≤ max_prop_size` the
subtraction `max_prop_size - min_prop_size` computing `prop_range` never
underflows: the checked subtraction succeeds with the exact difference
(and by definition of `checked_sub` it is `none` exactly when the
precondition fails). -/
theorem prop_range_no_underflow (args : Args)
    (h : args.min_prop_size ≤ args.max_prop_size) :
    prop_range args = some (args.max_prop_size - args.min_prop_size) := by
  simp [prop_range, checked_sub, h]

/-- Witness for C10 at the concrete arguments with bounds 4 and 7. -/
theorem prop_range_no_underflow_witness :
    args_norm.min_prop_size ≤ args_norm.max_prop_size ∧
    prop_range args_norm = some 3 := by
  exact ⟨by decide, prop_range_no_underflow args_norm (by decide)⟩

theorem offsets_getD (h : Nat) (lens : List Nat) :
    ∀ i, i ≤ lens.length → (offsets h lens).getD i 0 = h + (lens.take i).sum := by
  induction lens generalizing h with
  | nil =>
    intro i hi
    have : i = 0 := Nat.le_zero.mp hi
    subst this
    simp [offsets]
  | cons l ls ih =>
    intro i hi
    cases i with
    | zero => simp [offsets]
    | succ j =>
      have hj : j ≤ ls.length := by simpa using hi
      simp only [offsets, List.getD_cons_succ, List.take_succ_cons, List.sum_cons]
      rw [ih (h + l) j hj]
      omega

theorem offsets_getLast (h : Nat) (lens : List Nat) :
    (offsets h lens).getLast? = some (h + lens.sum) := by
  induction lens generalizing h with
  | nil => simp [offsets]
  | cons l ls ih =>
    rw [show offsets h (l :: ls) = h :: offsets (h + l) ls from rfl]
    rcases hls : offsets (h + l) ls with _ | ⟨a, t⟩
    · exfalso
      cases ls <;> simp [offsets] at hls
    · rw [List.getLast?_cons_cons, ← hls, ih (h + l)]
      congr 1
      simp only [List.sum_cons]
      omega

theorem take_sum_mono (lens : List Nat) (i j : Nat) (hij : i ≤ j) :
    (lens.take i).sum ≤ (lens.take j).sum := by
  have hsplit : (lens.take j).take i ++ (lens.take j).drop i = lens.take j :=
    List.take_append_drop i (lens.take j)
  have htt : (lens.take j).take i = lens.take i := by
    rw [List.take_take, min_eq_left hij]
  calc (lens.take i).sum
      ≤ (lens.take i).sum + ((lens.take j).drop i).sum := Nat.le_add_right _ _
    _ = (lens.take j).sum := by rw [← htt, ← List.sum_append, hsplit]

theorem take_sum_succ (lens : List Nat) (i : Nat) (hi : i < lens.length) :
    (lens.take (i + 1)).sum = (lens.take i).sum + lens.getD i 0 := by
  induction lens generalizing i with
  | nil => simp at hi
  | cons l ls ih =>
    cases i with
    | zero => simp
    | succ j =>
      have hj : j < ls.length := by simpa using hi
      simp only [List.take_succ_cons, List.sum_cons, List.getD_cons_succ]
      rw [ih j hj]
      omega

theorem offsets_cover (h : Nat) (lens : List Nat) :
    ∀ x, h ≤ x → x < h + lens.sum →
      ∃ i, i < lens.length ∧ (offsets h lens).getD i 0 ≤ x ∧
        x < (offsets h lens).getD (i + 1) 0 := by
  induction lens generalizing h with
  | nil =>
    intro x hx1 hx2
    simp only [List.sum_nil, Nat.add_zero] at hx2
    omega
  | cons l ls ih =>
    intro x hx1 hx2
    by_cases hcase : x < h + l
    · refine ⟨0, by simp, ?_, ?_⟩
      · rw [offsets_getD h (l :: ls) 0 (Nat.zero_le _)]
        simpa using hx1
      · rw [offsets_getD h (l :: ls) 1 (by simp)]
        simpa using hcase
    · have hx1h : h + l ≤ x := le_of_not_lt hcase
      have hx2h : x < (h + l) + ls.sum := by
        simp only [List.sum_cons] at hx2
        omega
      obtain ⟨i, hi, hlo, hhi⟩ := ih (h + l) x hx1h hx2h
      refine ⟨i + 1, by simpa using Nat.succ_lt_succ hi, ?_, ?_⟩
      · simpa only [offsets, List.getD_cons_succ] using hlo
      · simpa only [offsets, List.getD_cons_succ] using hhi

/-- C7: the offset table of `combine_chunks` starts at the header length,
each successive entry adds the corresponding chunk's byte length, the
final entry (to which the destination file is pre-sized) is the header
length plus the sum of all chunk lengths, and the derived
`[offset[i], offset[i+1])` ranges are pairwise disjoint and cover
`[header_length, total)` without gaps. -/
theorem offset_table_correct (h : Nat) (lens : List Nat) :
    (offsets h lens).getD 0 0 = h ∧
    (∀ i, i < lens.length →
      (offsets h lens).getD (i + 1) 0 =
        (offsets h lens).getD i 0 + lens.getD i 0) ∧
    (offsets h lens).getLast? = some (h + lens.sum) ∧
    (∀ i j, i < lens.length → j < lens.length → i < j →
      (offsets h lens).getD (i + 1) 0 ≤ (offsets h lens).getD j 0) ∧
    (∀ x, h ≤ x → x < h + lens.sum →
      ∃ i, i < lens.length ∧ (offsets h lens).getD i 0 ≤ x ∧
        x < (offsets h lens).getD (i + 1) 0) := by
  refine ⟨?_, ?_, offsets_getLast h lens, ?_, offsets_cover h lens⟩
  · rw [offsets_getD h lens 0 (Nat.zero_le _)]
    simp
  · intro i hi
    rw [offsets_getD h lens (i + 1) hi, offsets_getD h lens i (le_of_lt hi),
      take_sum_succ lens i hi]
    omega
  · intro i j hi hj hij
    rw [offsets_getD h lens (i + 1) hi, offsets_getD h lens j (le_of_lt hj)]
    have := take_sum_mono lens (i + 1) j hij
    omega

theorem drop_cr_eq (l : List Nat) (h : l.getLast? ≠ some 13) : drop_cr l = l := by
  unfold drop_cr
  split
  · exact absurd (by assumption) h
  · rfl

theorem split_lines_aux_line :
    ∀ (r t acc : List Nat), 10 ∉ r →
      split_lines_aux (r ++ 10 :: t) acc =
        drop_cr (acc.reverse ++ r) :: split_lines_aux t []
  | [], t, acc, _ => by simp [split_lines_aux]
  | c :: r₂, t, acc, hr => by
    have hc : ¬ c = 10 := fun hcc => hr (by simp [hcc])
    have hr₂ : 10 ∉ r₂ := fun hm => hr (List.mem_cons_of_mem c hm)
    show split_lines_aux (c :: (r₂ ++ 10 :: t)) acc = _
    simp only [split_lines_aux, if_neg hc]
    rw [split_lines_aux_line r₂ t (c :: acc) hr₂]
    congr 2
    simp

theorem rust_lines_rows :
    ∀ rows : List (List Nat),
      (∀ r ∈ rows, 10 ∉ r ∧ r.getLast? ≠ some 13) →
      rust_lines ((rows.map (fun r => r ++ [10])).flatten) = rows
  | [], _ => by simp [rust_lines, split_lines_aux]
  | r :: rest, hw => by
    have h1 := hw r (List.mem_cons_self r rest)
    have h2 : ∀ s ∈ rest, 10 ∉ s ∧ s.getLast? ≠ some 13 :=
      fun s hs => hw s (List.mem_cons_of_mem r hs)
    have hfl : ((r :: rest).map (fun s => s ++ [10])).flatten
        = r ++ 10 :: (rest.map (fun s => s ++ [10])).flatten := by
      simp
    unfold rust_lines
    rw [hfl, split_lines_aux_line r _ [] h1.1]
    rw [show ([] : List Nat).reverse ++ r = r by simp]
    rw [drop_cr_eq r h1.2]
    rw [show split_lines_aux ((rest.map (fun s => s ++ [10])).flatten) []
        = rust_lines ((rest.map (fun s => s ++ [10])).flatten) from rfl]
    rw [rust_lines_rows rest h2]

theorem reframe_wf (c : List Nat) (h : WellFormedChunk c) : reframe c = c := by
  obtain ⟨rows, hc, hw⟩ := h
  subst hc
  unfold reframe
  rw [rust_lines_rows rows (fun r hr => ⟨(hw r hr).1, (hw r hr).2.1⟩)]

theorem merge_run_concat :
    ∀ (chunks : List (List Nat)) (pre : List Nat),
      (∀ c ∈ chunks, WellFormedChunk c) →
      merge_run (pre ++ List.replicate ((chunks.map List.length).sum) 0)
        pre.length chunks = pre ++ chunks.flatten
  | [], pre, _ => by simp [merge_run]
  | c :: cs, pre, hw => by
    have hc : WellFormedChunk c := hw c (List.mem_cons_self c cs)
    have hcs : ∀ d ∈ cs, WellFormedChunk d :=
      fun d hd => hw d (List.mem_cons_of_mem c hd)
    have hre : reframe c = c := reframe_wf c hc
    have hsum : (((c :: cs).map List.length).sum)
        = c.length + ((cs.map List.length).sum) := by simp
    show merge_run
      (write_at (pre ++ List.replicate (((c :: cs).map List.length).sum) 0)
        pre.length (reframe c)) (pre.length + c.length) cs = _
    have hwrite : write_at
        (pre ++ List.replicate (((c :: cs).map List.length).sum) 0)
        pre.length (reframe c)
        = (pre ++ c) ++ List.replicate ((cs.map List.length).sum) 0 := by
      rw [hre]
      unfold write_at
      rw [List.take_left, List.drop_append, hsum, List.drop_replicate]
      rw [show c.length + (cs.map List.length).sum - c.length
          = (cs.map List.length).sum by omega]
    rw [hwrite, show pre.length + c.length = (pre ++ c).length by simp,
      merge_run_concat cs (pre ++ c) hcs]
    simp [List.append_assoc]

/-- C8 counterexample: a chunk file holding the single row `"a\r"`
terminated by exactly one newline (bytes 97, 13, 10) is re-framed to
bytes 97, 10 — the line reader also strips the trailing carriage
return — so with header byte 72 the destination content is not the
header followed by the chunk content byte for byte (a stale zero byte of
the pre-sized region also remains). -/
theorem reframe_strips_carriage_return :
    combine_result [72] [[97, 13, 10]] = [72, 97, 10, 0] ∧
    [72, 97, 10, 0] ≠ [72] ++ [97, 13, 10] := by
  decide

/-- C8 (amended): the line-oriented re-framing merge produces, after the
fixed header, destination content byte-for-byte equal to the
concatenation in chunk order of the per-chunk files, provided every row
is terminated by exactly one newline, contains no interior newline byte,
does not end in a carriage-return byte, and consists of ASCII bytes (all
of which hold for the rows this generator emits). -/
theorem combine_preserves_concatenation (header : List Nat)
    (chunks : List (List Nat)) (hw : ∀ c ∈ chunks, WellFormedChunk c) :
    combine_result header chunks = header ++ chunks.flatten :=
  merge_run_concat chunks header hw

/-- Witness for the amended C8 theorem: two one-row chunk files `"0\n"`
and `"1\n"` merge to the node header followed by their concatenation. -/
theorem combine_preserves_concatenation_witness :
    combine_result node_header [[48, 10], [49, 10]]
      = node_header ++ [[48, 10], [49, 10]].flatten := by
  apply combine_preserves_concatenation
  intro c hc
  rcases List.mem_cons.mp hc with h | h
  · subst h
    exact ⟨[[48]], by decide, by decide⟩
  · rcases List.mem_cons.mp h with h2 | h2
    · subst h2
      exact ⟨[[49]], by decide, by decide⟩
    · exact absurd h2 (List.not_mem_nil c)

/-- C9: in incremental mode the run stops right after the generation
barrier: the merged tables still hold exactly their header lines, no
merge output is produced, and every per-chunk node, edge and stats file
survives with the content its generator wrote. -/
theorem incremental_mode_stops (args : Args)
    (gen : Nat → List Nat × List Nat × List Nat)
    (h : args.generatechunks = true) :
    (run_generate args gen).nodes_csv = node_header ∧
    (run_generate args gen).edges_csv = edge_header ∧
    ∀ i, i < args.nprocs →
      (run_generate args gen).chunk_nodes i = some (gen i).1 ∧
      (run_generate args gen).chunk_edges i = some (gen i).2.1 ∧
      (run_generate args gen).chunk_stats i = some (gen i).2.2 := by
  simp only [run_generate, h, if_true]
  refine ⟨by trivial, by trivial, ?_⟩
  intro i hi
  simp [hi]

/-- Witness for C9: the incremental invocation with three workers leaves
the headers untouched and worker 2's three files present. -/
theorem incremental_mode_stops_witness :
    args_incr.generatechunks = true ∧
    (run_generate args_incr gen_sample).nodes_csv = node_header ∧
    (run_generate args_incr gen_sample).edges_csv = edge_header ∧
    (run_generate args_incr gen_sample).chunk_nodes 2 = some [50, 10] ∧
    (run_generate args_incr gen_sample).chunk_edges 2 = some [50, 124, 48, 10] ∧
    (run_generate args_incr gen_sample).chunk_stats 2 = some [50, 32, 49, 10] := by
  have h := incremental_mode_stops args_incr gen_sample rfl
  have h2 := h.2.2 2 (by decide)
  exact ⟨rfl, h.1, h.2.1, h2.1, h2.2.1, h2.2.2⟩

/-- Witness for C7 at header length 12 and chunk lengths 3 and 5: the
table is 12, 15, 20; the byte 16 falls in exactly the second range. -/
theorem offset_table_correct_witness :
    (offsets 12 [3, 5]).getD 0 0 = 12 ∧
    (offsets 12 [3, 5]).getLast? = some 20 ∧
    12 ≤ 16 ∧ 16 < 12 + [3, 5].sum ∧
    ∃ i, i < 2 ∧ (offsets 12 [3, 5]).getD i 0 ≤ 16 ∧
      16 < (offsets 12 [3, 5]).getD (i + 1) 0 := by
  have h := offset_table_correct 12 [3, 5]
  exact ⟨h.1, h.2.2.1, by norm_num, by norm_num,
    h.2.2.2.2 16 (by norm_num) (by norm_num)⟩

end Graphgen
